import Mathlib

/-!
Shallow embedding of the `maid` CLI core (src/main.rs): document
classification, name synthesis, placement resolution, and the keep/discard
redundancy resolver.  Strings are modelled with Lean `String` / `List Char`;
Rust Unicode case mapping is modelled with Lean's basic-latin `Char.toLower`
and `Char.toUpper`; timestamps (`chrono::DateTime`) are modelled as `Nat`
with their total order; file paths are modelled as `String`.
-/

namespace Maid

/-! ### Generic string helpers (models of Rust `str` methods) -/

/-- Model of Rust `str::contains` at the character-list level: `pat` occurs
as a contiguous substring of `l`. -/
def isSubL (pat : List Char) : List Char → Bool
  | [] => pat.isPrefixOf []
  | c :: rest => pat.isPrefixOf (c :: rest) || isSubL pat rest

/-- Model of Rust `str::contains`. -/
def hasSub (s pat : String) : Bool := isSubL pat.data s.data

/-- Model of Rust `str::ends_with`. -/
def strEndsWith (s pat : String) : Bool := pat.data.isSuffixOf s.data

/-- Model of Rust `str::to_lowercase` (basic-latin model). -/
def toLowerStr (s : String) : String := String.mk (s.data.map Char.toLower)

/-- Model of Rust `str::trim`: drop leading and trailing whitespace. -/
def trimL (l : List Char) : List Char :=
  ((l.dropWhile Char.isWhitespace).reverse.dropWhile Char.isWhitespace).reverse

/-- Model of Rust `str::split_whitespace`: the maximal whitespace-free
nonempty chunks of `l`, in order. -/
def wordsL : List Char → List (List Char)
  | [] => []
  | c :: cs =>
    if c.isWhitespace then wordsL cs
    else (c :: cs.takeWhile (fun d => !d.isWhitespace)) ::
      wordsL (cs.dropWhile (fun d => !d.isWhitespace))
  termination_by l => l.length
  decreasing_by
    all_goals simp only [List.length_cons]
    all_goals first
      | omega
      | exact Nat.lt_succ_of_le (List.dropWhile_sublist _).length_le

/-- Word count of a string under whitespace splitting, as used by the
rubric policy (`content.split_whitespace().count()`, main.rs:708). -/
def wordCount (s : String) : Nat := (wordsL s.data).length

/-- Capitalization of one word as in main.rs:247-255: upper-case the first
character, keep the rest unchanged (basic-latin model of `to_uppercase`). -/
def capWord : List Char → List Char
  | [] => []
  | c :: cs => c.toUpper :: cs

/-- Model of `Vec::join(" ")` (main.rs:258). -/
def joinWords : List (List Char) → List Char
  | [] => []
  | [w] => w
  | w :: ws => w ++ ' ' :: joinWords ws

/-- The title-case step of name synthesis (main.rs:244-258): split on
whitespace, capitalize each word, join with single spaces. -/
def titleCaseL (l : List Char) : List Char := joinWords ((wordsL l).map capWord)

/-- String-level wrapper for the title-case step. -/
def titleCaseStr (s : String) : String := String.mk (titleCaseL s.data)

/-! ### Data model -/

/-- File types handled by the tool (main.rs:82-87). -/
inductive FileType where
  | Markdown
  | Shell
  | Other
deriving DecidableEq, Repr

/-- Document kinds (main.rs:90-98). -/
inductive DocumentKind where
  | Rubric
  | Report
  | Guide
  | Summary
  | Script
  | Unknown
deriving DecidableEq, Repr

/-- Classified file record (struct `FileInfo`, main.rs:101-109). -/
structure FileInfo where
  path : String
  file_type : FileType
  doc_kind : DocumentKind
  name : String
  content : String
  created_date : Option Nat
deriving DecidableEq, Repr

/-- Raw on-disk candidate as supplied by the enumeration collaborator:
the path, its extension and stem (as the standard library path parser
yields them), the file body (`none` when the file cannot be read), and the
optional creation timestamp. -/
structure RawFile where
  path : String
  ext : Option String
  stem : Option String
  content : Option String
  created : Option Nat
deriving DecidableEq, Repr

/-! ### Document Classifier -/

/-- Embedding of `determine_document_kind` (main.rs:309-378). -/
def determine_document_kind (filename content : String) : DocumentKind :=
  let fl := toLowerStr filename
  let cl := toLowerStr content
  if hasSub fl "rubric" || hasSub cl "# rubric" || hasSub cl "rubric for" ||
      hasSub cl "evaluation rubric" || hasSub cl "assessment criteria" ||
      hasSub cl "scoring guide" then
    DocumentKind.Rubric
  else if hasSub fl "report" || hasSub fl "complete" || hasSub fl "status" ||
      hasSub fl "analysis" || hasSub fl "assessment" || hasSub cl "# report" ||
      hasSub cl "# completion" || hasSub cl "# status" || hasSub cl "# analysis" ||
      hasSub cl "task completion" || hasSub cl "completion report" ||
      hasSub cl "status update" then
    DocumentKind.Report
  else if hasSub fl "guide" || hasSub fl "how_to" || hasSub fl "howto" ||
      hasSub fl "manual" || hasSub fl "tutorial" || hasSub fl "instructions" ||
      hasSub cl "# guide" || hasSub cl "# how to" || hasSub cl "step by step" ||
      hasSub cl "# tutorial" || hasSub cl "# instructions" ||
      hasSub cl "how to use" || hasSub cl "usage instructions" then
    DocumentKind.Guide
  else if hasSub fl "summary" || hasSub fl "overview" || hasSub fl "recap" ||
      hasSub fl "synopsis" || hasSub cl "# summary" || hasSub cl "## summary" ||
      hasSub cl "# overview" || hasSub cl "# recap" || hasSub cl "in conclusion" ||
      hasSub cl "executive summary" || hasSub cl "project summary" then
    DocumentKind.Summary
  else if strEndsWith fl ".sh" then
    DocumentKind.Script
  else
    DocumentKind.Unknown

/-- Embedding of `FileInfo::new` (main.rs:112-148): `none` when reading the
file fails; otherwise the record with `file_type` from the extension, `name`
the stem (`"unknown"` when absent), and `doc_kind` computed from name and
content. -/
def FileInfo.new (f : RawFile) : Option FileInfo :=
  match f.content with
  | none => none
  | some content =>
    let file_type := match f.ext with
      | some "md" => FileType.Markdown
      | some "sh" => FileType.Shell
      | _ => FileType.Other
    let name := f.stem.getD "unknown"
    some { path := f.path
           file_type := file_type
           doc_kind := determine_document_kind name content
           name := name
           content := content
           created_date := f.created }

/-! ### Name Synthesizer -/

/-- Drop the separator run `[_\-\s]*` following a matched keyword
(main.rs:159-167). -/
def stripSeps (l : List Char) : List Char :=
  l.dropWhile (fun c => c = '_' || c = '-' || c.isWhitespace)

/-- At the current position, try each keyword alternative in order; on a hit
return the rest of the input with separators stripped.  This mirrors the
alternation preference of the Rust regexes (`setup|install` tries `setup`
first; `config(?:uration)?` greedily prefers `configuration`). -/
def tryHere (kws : List (List Char)) (l : List Char) : Option (List Char) :=
  kws.findSome? (fun kw => if kw.isPrefixOf l then some (stripSeps (l.drop kw.length)) else none)

/-- Leftmost-position keyword search: the capture of the Rust patterns
`(?i)kw[_\-\s]*(.*?)$` on newline-free input, the only inputs the name
synthesizer receives (file stems). -/
def findCapture (kws : List (List Char)) : List Char → Option (List Char)
  | [] => tryHere kws []
  | c :: rest =>
    match tryHere kws (c :: rest) with
    | some r => some r
    | none => findCapture kws rest

/-- One action-word pattern of `generate_new_filename`: the canonical word
written into the title, and the keyword alternatives of its regex. -/
structure NamePattern where
  canon : String
  kws : List String
deriving DecidableEq, Repr

/-- The nine action-word patterns in the order the code applies them
(main.rs:159-167 and 172-242). -/
def patternList : List NamePattern :=
  [ { canon := "Install", kws := ["setup", "install"] }
  , { canon := "Test", kws := ["test"] }
  , { canon := "Launch", kws := ["launch"] }
  , { canon := "Verify", kws := ["verify"] }
  , { canon := "Cleanup", kws := ["cleanup"] }
  , { canon := "Integration", kws := ["integration"] }
  , { canon := "Configuration", kws := ["configuration", "config"] }
  , { canon := "Build", kws := ["build"] }
  , { canon := "Deploy", kws := ["deploy"] } ]

/-- The capture of one pattern on the normalized name, trimmed as in
`m.as_str().trim()`. -/
def captureOf (p : NamePattern) (n : String) : Option String :=
  (findCapture (p.kws.map String.data) n.data).map (fun c => String.mk (trimL c))

/-- The working title a successful match writes (`format!("Canon {}", cap)`). -/
def renderPattern (p : NamePattern) (n : String) : String :=
  match captureOf p n with
  | some cap => p.canon ++ " " ++ cap
  | none => n

/-- The cascade of conditional overwrites (main.rs:172-242): each pattern is
tried against the normalized name and, on a match, overwrites the working
title. -/
def applyPatterns (n : String) : List NamePattern → String → String
  | [], acc => acc
  | p :: ps, acc =>
    applyPatterns n ps (if (captureOf p n).isSome then renderPattern p n else acc)

/-- The improved name produced by the pattern cascade, starting from the
normalized name itself. -/
def improvedName (n : String) : String := applyPatterns n patternList n

/-- Name normalization (main.rs:152-156): underscores and hyphens to
spaces, then lower-case. -/
def normalizeName (s : String) : String :=
  toLowerStr (String.mk ((s.data.map (fun c => if c = '_' then ' ' else c)).map
    (fun c => if c = '-' then ' ' else c)))

/-- Model of `Path::file_name` for the `Other` fallback branch. -/
def fileNameOf (p : String) : String :=
  match (p.splitOn "/").getLast? with
  | some s => if s = "" then "unknown" else s
  | none => "unknown"

/-- Embedding of `FileInfo::generate_new_filename` (main.rs:151-281). -/
def generate_new_filename (info : FileInfo) : String :=
  let normalized := normalizeName info.name
  let improved := improvedName normalized
  let title := titleCaseStr improved
  let prefixed := match info.doc_kind with
    | DocumentKind.Rubric => "Rubric - " ++ title
    | DocumentKind.Report => "Report - " ++ title
    | DocumentKind.Guide => "Guide - " ++ title
    | DocumentKind.Summary => "Summary - " ++ title
    | DocumentKind.Script => title
    | DocumentKind.Unknown => title
  match info.file_type with
  | FileType.Markdown => prefixed ++ ".md"
  | FileType.Shell => prefixed ++ ".sh"
  | FileType.Other => fileNameOf info.path

/-! ### Placement Resolver -/

/-- Embedding of `FileInfo::suggest_target_directory` (main.rs:284-305);
`Path::join` is modelled by `/`-concatenation. -/
def suggest_target_directory (info : FileInfo) (base_dir : String) : String :=
  match info.file_type, info.doc_kind with
  | FileType.Markdown, DocumentKind.Rubric => base_dir ++ "/docs/rubrics"
  | FileType.Markdown, DocumentKind.Report => base_dir ++ "/docs/reports"
  | FileType.Markdown, DocumentKind.Guide => base_dir ++ "/docs/guides"
  | FileType.Markdown, DocumentKind.Summary => base_dir ++ "/docs/summaries"
  | FileType.Shell, DocumentKind.Script =>
    let content_lower := toLowerStr info.content
    if hasSub content_lower "install" || hasSub content_lower "setup" then
      base_dir ++ "/scripts/setup"
    else if hasSub content_lower "test" then
      base_dir ++ "/scripts/tests"
    else if hasSub content_lower "build" then
      base_dir ++ "/scripts/build"
    else
      base_dir ++ "/scripts"
  | _, _ => base_dir

/-! ### Redundancy Resolver -/

/-- Stable insertion into a sorted list; together with `sortByCmp` this
models the stable `Vec::sort_by` used by `evaluate_files`. -/
def insertCmp (cmp : α → α → Ordering) (x : α) : List α → List α
  | [] => [x]
  | y :: ys => if cmp x y = Ordering.gt then y :: insertCmp cmp x ys else x :: y :: ys

/-- Stable sort by comparator (model of `Vec::sort_by`). -/
def sortByCmp (cmp : α → α → Ordering) : List α → List α
  | [] => []
  | x :: xs => insertCmp cmp x (sortByCmp cmp xs)

/-- Rubric comparator (main.rs:707-711): descending word count. -/
def rubricCmp (a b : String × FileInfo) : Ordering :=
  compare (wordCount b.2.content) (wordCount a.2.content)

/-- Report and summary comparator (main.rs:743-750 and 795-802): newest
first, records without a timestamp after all timestamped ones. -/
def dateCmp (a b : String × FileInfo) : Ordering :=
  match a.2.created_date, b.2.created_date with
  | some ad, some bd => compare bd ad
  | some _, none => Ordering.lt
  | none, some _ => Ordering.gt
  | none, none => Ordering.eq

/-- Sort the group, keep the first element, discard the rest: the shared
shape of the rubric (main.rs:704-738), report (main.rs:740-777) and summary
(main.rs:792-829) policies. -/
def keepBest (cmp : (String × FileInfo) → (String × FileInfo) → Ordering)
    (group : List (String × FileInfo)) : List String × List String :=
  match sortByCmp cmp group with
  | [] => ([], [])
  | x :: rest => ([x.1], rest.map (fun r => r.1))

/-- Script deduplication loop (main.rs:831-867): each script is discarded
when its trimmed content equals the trimmed content of an already-kept
unique script, and kept (and added to the unique list) otherwise. -/
def processScripts : List (String × FileInfo) → List (String × FileInfo) →
    List String × List String
  | [], _ => ([], [])
  | (p, info) :: rest, uniques =>
    if uniques.any (fun u => trimL info.content.data == trimL u.2.content.data) then
      let r := processScripts rest uniques
      (r.1, p :: r.2)
    else
      let r := processScripts rest (uniques ++ [(p, info)])
      (p :: r.1, r.2)

/-- The per-kind groups built by the first pass of `evaluate_files`
(main.rs:676-702), plus the paths kept unconditionally during that pass
(unreadable files and `Unknown`-kind records). -/
structure Groups where
  important : List String
  rubrics : List (String × FileInfo)
  reports : List (String × FileInfo)
  guides : List (String × FileInfo)
  summaries : List (String × FileInfo)
  scripts : List (String × FileInfo)
deriving Repr

/-- The grouping pass of `evaluate_files` (main.rs:682-702), preserving
enumeration order within every group. -/
def classifyPass : List RawFile → Groups
  | [] => { important := [], rubrics := [], reports := [], guides := []
            summaries := [], scripts := [] }
  | f :: fs =>
    let g := classifyPass fs
    match FileInfo.new f with
    | none => { g with important := f.path :: g.important }
    | some info =>
      match info.doc_kind with
      | DocumentKind.Rubric => { g with rubrics := (f.path, info) :: g.rubrics }
      | DocumentKind.Report => { g with reports := (f.path, info) :: g.reports }
      | DocumentKind.Guide => { g with guides := (f.path, info) :: g.guides }
      | DocumentKind.Summary => { g with summaries := (f.path, info) :: g.summaries }
      | DocumentKind.Script => { g with scripts := (f.path, info) :: g.scripts }
      | DocumentKind.Unknown => { g with important := f.path :: g.important }

/-- Embedding of `KeepAnalysis::evaluate_files` (main.rs:674-870): the
keep/discard partition, with paths listed in the order the code pushes
them. -/
def evaluate_files (files : List RawFile) : List String × List String :=
  let g := classifyPass files
  let rub := keepBest rubricCmp g.rubrics
  let rep := keepBest dateCmp g.reports
  let gu := g.guides.map (fun r => r.1)
  let sum := keepBest dateCmp g.summaries
  let scr := processScripts g.scripts []
  (g.important ++ rub.1 ++ rep.1 ++ gu ++ sum.1 ++ scr.1,
   rub.2 ++ rep.2 ++ sum.2 ++ scr.2)

/-- The keep set of the redundancy partition. -/
def keepOf (files : List RawFile) : List String := (evaluate_files files).1

/-- The discard set of the redundancy partition. -/
def discardOf (files : List RawFile) : List String := (evaluate_files files).2

/-! ### Specification-side definitions (stated from the spec's words, to be
compared with the code embeddings above) -/

/-- The first element of the list attaining the maximum under the strict
comparison `better` (later elements replace the current best only when
strictly better). -/
def bestBy (better : α → α → Bool) : List α → Option α
  | [] => none
  | x :: xs =>
    match bestBy better xs with
    | none => some x
    | some m => some (if better m x then m else x)

/-- Spec ordering on creation dates: an absent timestamp is older than any
present one. -/
def newerThan (a b : Option Nat) : Bool :=
  match a, b with
  | some ad, some bd => decide (bd < ad)
  | some _, none => true
  | _, _ => false

/-- Modelled from the spec: the record of a group with the most recent
`createdAt`, an absent timestamp ordering as oldest, ties broken by
original enumeration order. -/
def mostRecent (g : List (String × FileInfo)) : Option (String × FileInfo) :=
  bestBy (fun m x => newerThan m.2.created_date x.2.created_date) g

/-- Strictly more whitespace-delimited words. -/
def moreWords (a b : String × FileInfo) : Bool :=
  decide (wordCount b.2.content < wordCount a.2.content)

/-- Modelled from the spec: the record of a group with the highest
whitespace-delimited word count, ties broken by original enumeration
order. -/
def mostComprehensive (g : List (String × FileInfo)) : Option (String × FileInfo) :=
  bestBy moreWords g

/-- The last pattern of the fixed list that matches the normalized name. -/
def lastMatching (n : String) : Option NamePattern :=
  (patternList.filter (fun p => (captureOf p n).isSome)).getLast?

/-- The readable records of the input, paired with their paths. -/
def readableInfos (files : List RawFile) : List (String × FileInfo) :=
  files.filterMap (fun f => (FileInfo.new f).map (fun i => (f.path, i)))

/-- The group of records of a given document kind.  For the five grouped
kinds this is the corresponding `classifyPass` group; for `Unknown` it is
the list of readable `Unknown` records (which the code keeps directly). -/
def groupOfKind (files : List RawFile) : DocumentKind → List (String × FileInfo)
  | DocumentKind.Rubric => (classifyPass files).rubrics
  | DocumentKind.Report => (classifyPass files).reports
  | DocumentKind.Guide => (classifyPass files).guides
  | DocumentKind.Summary => (classifyPass files).summaries
  | DocumentKind.Script => (classifyPass files).scripts
  | DocumentKind.Unknown =>
    (readableInfos files).filter (fun x => x.2.doc_kind == DocumentKind.Unknown)

/-- All input paths as distributed over the six destinations of the
grouping pass. -/
def Groups.allPaths (g : Groups) : List String :=
  g.important ++ g.rubrics.map (fun r => r.1) ++ g.reports.map (fun r => r.1) ++
    g.guides.map (fun r => r.1) ++ g.summaries.map (fun r => r.1) ++
    g.scripts.map (fun r => r.1)

/-- A good word list: every word nonempty and whitespace-free. -/
def GoodWords (ws : List (List Char)) : Prop :=
  ∀ w ∈ ws, w ≠ [] ∧ ∀ c ∈ w, c.isWhitespace = false

/-! ### Concrete inputs used by the witnesses -/

/-- Two reports (newest `r2.md`), two summaries (timestamped `s2.md` beats
the one with no timestamp). -/
def demoC3 : List RawFile :=
  [ { path := "r1.md", ext := some "md", stem := some "status_one",
      content := some "x", created := some 3 }
  , { path := "r2.md", ext := some "md", stem := some "status_two",
      content := some "y", created := some 7 }
  , { path := "s1.md", ext := some "md", stem := some "overview_a",
      content := some "z", created := none }
  , { path := "s2.md", ext := some "md", stem := some "overview_b",
      content := some "w", created := some 1 } ]

/-- Two rubrics; `rubric_v2.md` has the higher word count. -/
def demoC4 : List RawFile :=
  [ { path := "rubric_v1.md", ext := some "md", stem := some "rubric_v1",
      content := some "short text", created := none }
  , { path := "rubric_v2.md", ext := some "md", stem := some "rubric_v2",
      content := some "a much longer evaluation text here", created := none } ]

/-- Three scripts; `b.sh` duplicates `a.sh` after trimming. -/
def demoC5 : List RawFile :=
  [ { path := "a.sh", ext := some "sh", stem := some "a.sh",
      content := some "echo hi", created := none }
  , { path := "b.sh", ext := some "sh", stem := some "b.sh",
      content := some " echo hi ", created := none }
  , { path := "c.sh", ext := some "sh", stem := some "c.sh",
      content := some "echo bye", created := none } ]

/-- A singleton guide group. -/
def demoC6 : List RawFile :=
  [ { path := "g.md", ext := some "md", stem := some "user_guide",
      content := some "hi", created := none } ]

/-- Mixed input: two reports, an unreadable file and an unclassifiable one. -/
def demoC1 : List RawFile :=
  [ { path := "a.md", ext := some "md", stem := some "status_a",
      content := some "x", created := some 5 }
  , { path := "b.md", ext := some "md", stem := some "status_b",
      content := some "y", created := none }
  , { path := "c.md", ext := some "md", stem := some "notes",
      content := some "hello", created := none }
  , { path := "d.md", ext := some "md", stem := some "broken",
      content := none, created := none } ]

/-- The three script records of `demoC5`, as classified by the code. -/
def recA5 : String × FileInfo :=
  ("a.sh", { path := "a.sh", file_type := FileType.Shell,
             doc_kind := DocumentKind.Script, name := "a.sh",
             content := "echo hi", created_date := none })

/-- Second script record of `demoC5` (trimmed duplicate of `recA5`). -/
def recB5 : String × FileInfo :=
  ("b.sh", { path := "b.sh", file_type := FileType.Shell,
             doc_kind := DocumentKind.Script, name := "b.sh",
             content := " echo hi ", created_date := none })

/-- Third script record of `demoC5`. -/
def recC5 : String × FileInfo :=
  ("c.sh", { path := "c.sh", file_type := FileType.Shell,
             doc_kind := DocumentKind.Script, name := "c.sh",
             content := "echo bye", created_date := none })

/-! ## Lemmas about whitespace splitting and title casing -/

lemma takeWhile_append_stop {p : Char → Bool} {l₁ l₂ : List Char} {a : Char}
    (h : ∀ x ∈ l₁, p x = true) (ha : p a = false) :
    (l₁ ++ a :: l₂).takeWhile p = l₁ := by
  induction l₁ with
  | nil => simp [List.takeWhile_cons, ha]
  | cons c cs ih =>
    have hc := h c (by simp)
    simp only [List.cons_append, List.takeWhile_cons, hc, if_true]
    rw [ih (fun x hx => h x (by simp [hx]))]

lemma dropWhile_append_stop {p : Char → Bool} {l₁ l₂ : List Char} {a : Char}
    (h : ∀ x ∈ l₁, p x = true) (ha : p a = false) :
    (l₁ ++ a :: l₂).dropWhile p = a :: l₂ := by
  induction l₁ with
  | nil => simp [List.dropWhile_cons, ha]
  | cons c cs ih =>
    have hc := h c (by simp)
    simp only [List.cons_append, List.dropWhile_cons, hc, if_true]
    exact ih (fun x hx => h x (by simp [hx]))

lemma takeWhile_all {p : Char → Bool} {l : List Char} (h : ∀ x ∈ l, p x = true) :
    l.takeWhile p = l := by
  induction l with
  | nil => rfl
  | cons c cs ih =>
    have hc := h c (by simp)
    simp only [List.takeWhile_cons, hc, if_true]
    rw [ih (fun x hx => h x (by simp [hx]))]

lemma dropWhile_all {p : Char → Bool} {l : List Char} (h : ∀ x ∈ l, p x = true) :
    l.dropWhile p = [] := by
  induction l with
  | nil => rfl
  | cons c cs ih =>
    have hc := h c (by simp)
    simp only [List.dropWhile_cons, hc, if_true]
    exact ih (fun x hx => h x (by simp [hx]))

lemma wordsL_nil : wordsL [] = [] := by rw [wordsL]

lemma wordsL_ws_cons {c : Char} (hc : c.isWhitespace = true) (l : List Char) :
    wordsL (c :: l) = wordsL l := by
  rw [wordsL]
  simp [hc]

lemma wordsL_word (w : List Char) (hw : w ≠ [])
    (hnws : ∀ c ∈ w, c.isWhitespace = false) (r : List Char) :
    wordsL (w ++ ' ' :: r) = w :: wordsL r := by
  match w, hw with
  | c :: cs, _ =>
    have hc : c.isWhitespace = false := hnws c (by simp)
    rw [List.cons_append, wordsL]
    have hcs : ∀ x ∈ cs, (!x.isWhitespace) = true := by
      intro x hx
      simp [hnws x (by simp [hx])]
    have hsp : (!(' ' : Char).isWhitespace) = false := by decide
    rw [if_neg (by simp [hc]), takeWhile_append_stop hcs hsp, dropWhile_append_stop hcs hsp,
      wordsL_ws_cons (by decide)]

lemma wordsL_word_nil (w : List Char) (hw : w ≠ [])
    (hnws : ∀ c ∈ w, c.isWhitespace = false) :
    wordsL w = [w] := by
  match w, hw with
  | c :: cs, _ =>
    have hc : c.isWhitespace = false := hnws c (by simp)
    rw [wordsL]
    have hcs : ∀ x ∈ cs, (!x.isWhitespace) = true := by
      intro x hx
      simp [hnws x (by simp [hx])]
    rw [if_neg (by simp [hc]), takeWhile_all hcs, dropWhile_all hcs, wordsL_nil]

lemma joinWords_cons_cons (w w' : List Char) (ws : List (List Char)) :
    joinWords (w :: w' :: ws) = w ++ ' ' :: joinWords (w' :: ws) := rfl

lemma wordsL_joinWords : ∀ ws : List (List Char), GoodWords ws →
    wordsL (joinWords ws) = ws
  | [], _ => by rw [joinWords, wordsL_nil]
  | [w], h => by
    rw [joinWords]
    exact wordsL_word_nil w (h w (by simp)).1 (h w (by simp)).2
  | w :: w' :: ws, h => by
    rw [joinWords_cons_cons, wordsL_word w (h w (by simp)).1 (h w (by simp)).2,
      wordsL_joinWords (w' :: ws) (fun u hu => h u (by simp [hu]))]

lemma wordsL_good : ∀ l : List Char, GoodWords (wordsL l) := by
  intro l
  induction l using wordsL.induct with
  | case1 => rw [wordsL_nil]; intro w hw; simp at hw
  | case2 c cs hc ih =>
    rw [wordsL_ws_cons (by simpa using hc)]
    exact ih
  | case3 c cs hc ih =>
    rw [wordsL]
    rw [if_neg hc]
    intro w hw
    rcases List.mem_cons.1 hw with h | h
    · subst h
      refine ⟨by simp, ?_⟩
      intro d hd
      rcases List.mem_cons.1 hd with h | h
      · subst h
        simpa using hc
      · simpa using List.mem_takeWhile_imp h
    · exact ih w h

lemma char_ofNat_upper_facts {m : Nat} (h1 : 65 ≤ m) (h2 : m ≤ 90) :
    (Char.ofNat m).toNat = m ∧ (Char.ofNat m).isWhitespace = false := by
  interval_cases m <;> exact ⟨by decide, by decide⟩

lemma toUpper_not_ws {c : Char} (h : c.isWhitespace = false) :
    c.toUpper.isWhitespace = false := by
  by_cases hc : c.toNat ≥ 97 ∧ c.toNat ≤ 122
  · rw [Char.toUpper, if_pos hc]
    exact (char_ofNat_upper_facts (by omega) (by omega)).2
  · rwa [Char.toUpper, if_neg hc]

lemma toUpper_toUpper (c : Char) : c.toUpper.toUpper = c.toUpper := by
  by_cases hc : c.toNat ≥ 97 ∧ c.toNat ≤ 122
  · have h1 : c.toUpper = Char.ofNat (c.toNat - 32) := by rw [Char.toUpper, if_pos hc]
    have h2 : (Char.ofNat (c.toNat - 32)).toNat = c.toNat - 32 :=
      (char_ofNat_upper_facts (by omega) (by omega)).1
    rw [h1, Char.toUpper, if_neg (by rw [h2]; omega)]
  · have h1 : c.toUpper = c := by rw [Char.toUpper, if_neg hc]
    rw [h1, h1]

lemma capWord_good {w : List Char} (hw : w ≠ []) (hnws : ∀ c ∈ w, c.isWhitespace = false) :
    capWord w ≠ [] ∧ ∀ c ∈ capWord w, c.isWhitespace = false := by
  match w, hw with
  | c :: cs, _ =>
    refine ⟨by simp [capWord], ?_⟩
    intro d hd
    rcases List.mem_cons.1 hd with h | h
    · subst h
      exact toUpper_not_ws (hnws c (by simp))
    · exact hnws d (by simp [h])

lemma capWord_capWord (w : List Char) : capWord (capWord w) = capWord w := by
  cases w with
  | nil => rfl
  | cons c cs => simp [capWord, toUpper_toUpper]

lemma titleCaseL_idem (l : List Char) : titleCaseL (titleCaseL l) = titleCaseL l := by
  unfold titleCaseL
  have hgood : GoodWords ((wordsL l).map capWord) := by
    intro w hw
    rcases List.mem_map.1 hw with ⟨u, hu, rfl⟩
    exact capWord_good (wordsL_good l u hu).1 (wordsL_good l u hu).2
  rw [wordsL_joinWords _ hgood, List.map_map]
  congr 1
  exact List.map_congr_left (fun u _ => capWord_capWord u)

/-- C9: the title-case step of name synthesis is idempotent: applied to a
string it has already produced, it yields the same string. -/
theorem C9_title_case_idempotent (s : String) :
    titleCaseStr (titleCaseStr s) = titleCaseStr s := by
  unfold titleCaseStr
  rw [titleCaseL_idem]

/-! ## Lemmas about the name-pattern cascade -/

lemma getLast?_cons_of_some {α : Type _} {l : List α} {q : α} (a : α)
    (h : l.getLast? = some q) : (a :: l).getLast? = some q := by
  cases l with
  | nil => simp at h
  | cons b bs => rw [List.getLast?_cons_cons]; exact h

lemma applyPatterns_eq (n : String) : ∀ (ps : List NamePattern) (acc : String),
    applyPatterns n ps acc =
      match (ps.filter (fun p => (captureOf p n).isSome)).getLast? with
      | none => acc
      | some p => renderPattern p n := by
  intro ps
  induction ps with
  | nil => intro acc; rfl
  | cons p ps ih =>
    intro acc
    rw [applyPatterns]
    by_cases hp : (captureOf p n).isSome = true
    · rw [if_pos hp, ih (renderPattern p n), List.filter_cons_of_pos (by simpa using hp)]
      cases h : (ps.filter (fun q => (captureOf q n).isSome)).getLast? with
      | none =>
        rw [List.getLast?_eq_none_iff.1 h]
        rfl
      | some q => rw [getLast?_cons_of_some p h]
    · rw [if_neg hp, ih acc, List.filter_cons_of_neg (by simpa using hp)]

lemma improvedName_eq (n : String) :
    improvedName n =
      match lastMatching n with
      | none => n
      | some p => renderPattern p n :=
  applyPatterns_eq n patternList n

lemma joinWords_singleton (w : List Char) : joinWords [w] = w := rfl

lemma titleCaseL_head_word (w : List Char) (hw : w ≠ [])
    (hnws : ∀ c ∈ w, c.isWhitespace = false) (hcap : capWord w = w) (r : List Char) :
    w <+: titleCaseL (w ++ ' ' :: r) := by
  unfold titleCaseL
  rw [wordsL_word w hw hnws r, List.map_cons, hcap]
  cases h : (wordsL r).map capWord with
  | nil => rw [joinWords_singleton]
  | cons u us => exact ⟨' ' :: joinWords (u :: us), (joinWords_cons_cons w u us).symm⟩

lemma lastMatching_render {n : String} {p : NamePattern} (h : lastMatching n = some p) :
    ∃ cap : String, improvedName n = p.canon ++ " " ++ cap := by
  have h2 : improvedName n = renderPattern p n := by
    have h1 := improvedName_eq n
    rw [h] at h1
    simpa using h1
  have hp : p ∈ patternList.filter (fun q => (captureOf q n).isSome) :=
    List.mem_of_getLast?_eq_some h
  have hsome : (captureOf p n).isSome := (List.mem_filter.1 hp).2
  obtain ⟨cap, hcap⟩ := Option.isSome_iff_exists.1 hsome
  refine ⟨cap, ?_⟩
  rw [h2]
  unfold renderPattern
  rw [hcap]

lemma canon_prefix_of_lastMatching {n : String} {p : NamePattern}
    (h : lastMatching n = some p) (hne : p.canon.data ≠ [])
    (hnws : ∀ c ∈ p.canon.data, c.isWhitespace = false)
    (hcap : capWord p.canon.data = p.canon.data) :
    p.canon.data <+: (titleCaseStr (improvedName n)).data := by
  obtain ⟨cap, hcap2⟩ := lastMatching_render h
  rw [hcap2]
  show p.canon.data <+: titleCaseL ((p.canon ++ " " ++ cap).data)
  have hdata : (p.canon ++ " " ++ cap).data = p.canon.data ++ ' ' :: cap.data := by
    rw [String.data_append, String.data_append]
    simp
  rw [hdata]
  exact titleCaseL_head_word _ hne hnws hcap _

/-- C7: the action-word patterns are applied in the fixed order
install/setup, test, launch, verify, cleanup, integration, configuration,
build, deploy; every successful match overwrites the working title, so the
last matching pattern of the fixed list determines the result. -/
theorem C7_last_matching_pattern_wins :
    patternList.map NamePattern.canon =
      ["Install", "Test", "Launch", "Verify", "Cleanup", "Integration",
       "Configuration", "Build", "Deploy"] ∧
    ∀ n : String,
      improvedName n =
        match lastMatching n with
        | none => n
        | some p => renderPattern p n :=
  ⟨rfl, improvedName_eq⟩

/-- C10: the synthesizer rewrites the matched keyword to a fixed canonical
word: when the last-matching pattern is the install/setup pattern the title
begins with "Install", and when it is the config pattern the title begins
with "Configuration", regardless of which alternative keyword occurred in
the name. -/
theorem C10_canonical_action_words (n : String) :
    (lastMatching n = some { canon := "Install", kws := ["setup", "install"] } →
      "Install".data <+: (titleCaseStr (improvedName n)).data) ∧
    (lastMatching n = some { canon := "Configuration", kws := ["configuration", "config"] } →
      "Configuration".data <+: (titleCaseStr (improvedName n)).data) := by
  constructor
  · intro h
    exact canon_prefix_of_lastMatching h (by decide) (by decide) (by decide)
  · intro h
    exact canon_prefix_of_lastMatching h (by decide) (by decide) (by decide)

/-- Witness for C10: the name "setup env" contains "setup" and not
"install" and its last matching pattern is the install/setup pattern, so
its title starts with "Install"; the name "config db" contains only
"config" and its title starts with "Configuration". -/
theorem C10_canonical_action_words_witness :
    hasSub "setup env" "setup" = true ∧ hasSub "setup env" "install" = false ∧
    lastMatching "setup env" = some { canon := "Install", kws := ["setup", "install"] } ∧
    "Install".data <+: (titleCaseStr (improvedName "setup env")).data ∧
    hasSub "config db" "config" = true ∧
    hasSub "config db" "configuration" = false ∧
    lastMatching "config db" = some { canon := "Configuration", kws := ["configuration", "config"] } ∧
    "Configuration".data <+: (titleCaseStr (improvedName "config db")).data :=
  ⟨by decide, by decide, by decide,
    (C10_canonical_action_words "setup env").1 (by decide),
    by decide, by decide, by decide,
    (C10_canonical_action_words "config db").2 (by decide)⟩

/-! ## Document classifier and placement resolver -/

lemma isPrefixOf_eq_true_iff {l₁ l₂ : List Char} :
    l₁.isPrefixOf l₂ = true ↔ ∃ t, l₁ ++ t = l₂ := by
  rw [ List.isPrefixOf_iff_prefix]
  rfl

lemma isSubL_iff (pat : List Char) : ∀ l : List Char,
    isSubL pat l = true ↔ ∃ s t, s ++ (pat ++ t) = l
  | [] => by
    rw [isSubL]
    constructor
    · intro h
      obtain ⟨t, ht⟩ := isPrefixOf_eq_true_iff.1 h
      exact ⟨[], t, by simpa using ht⟩
    · rintro ⟨s, t, hst⟩
      have hs : s = [] := by cases s <;> simp_all
      subst hs
      have hp : pat = [] := by cases pat <;> simp_all
      simp [hp]
  | c :: rest => by
    rw [isSubL, Bool.or_eq_true]
    constructor
    · rintro (h | h)
      · obtain ⟨t, ht⟩ := isPrefixOf_eq_true_iff.1 h
        exact ⟨[], t, by simpa using ht⟩
      · obtain ⟨s, t, hst⟩ := (isSubL_iff pat rest).1 h
        exact ⟨c :: s, t, by simp [hst]⟩
    · rintro ⟨s, t, hst⟩
      cases s with
      | nil =>
        exact Or.inl (isPrefixOf_eq_true_iff.2 ⟨t, by simpa using hst⟩)
      | cons a as =>
        simp only [List.cons_append, List.cons.injEq] at hst
        exact Or.inr ((isSubL_iff pat rest).2 ⟨as, t, hst.2⟩)

lemma isSubL_trans {p q l : List Char} (h1 : isSubL p q = true)
    (h2 : isSubL q l = true) : isSubL p l = true := by
  obtain ⟨s, t, rfl⟩ := (isSubL_iff p q).1 h1
  obtain ⟨u, v, rfl⟩ := (isSubL_iff (s ++ (p ++ t)) l).1 h2
  exact (isSubL_iff p _).2 ⟨u ++ s, t ++ v, by simp⟩

lemma hasSub_of_hasSub {s p q : String} (h1 : isSubL p.data q.data = true)
    (h2 : hasSub s q = true) : hasSub s p = true :=
  isSubL_trans h1 h2

/-- C2: evaluation of the code at the spec's own example input.  The shell
file `install_deps.sh` (stem `install_deps`, content with no keyword
signal) is classified `Unknown`, not `Script`: `determine_document_kind`
receives the extensionless stem and tests it for the suffix `.sh`, so the
extension-based `Script` fallback never fires for ordinary `.sh` files,
contradicting the code's own comment that shell files are automatically
scripts. -/
theorem C2_shell_file_classified_unknown :
    FileInfo.new { path := "install_deps.sh", ext := some "sh",
                   stem := some "install_deps",
                   content := some "# installs project dependencies",
                   created := none } =
      some { path := "install_deps.sh", file_type := FileType.Shell,
             doc_kind := DocumentKind.Unknown, name := "install_deps",
             content := "# installs project dependencies",
             created_date := none } := by
  rfl

/-- C8: for Shell-typed Script records the placement resolver scans the
lower-cased content and picks the first matching target in the order
setup, tests, build, generic scripts; in particular a content containing
"npm test" with no install or setup signal resolves to scripts/tests. -/
theorem C8_script_placement (info : FileInfo) (base_dir : String)
    (h1 : info.file_type = FileType.Shell)
    (h2 : info.doc_kind = DocumentKind.Script) :
    (hasSub (toLowerStr info.content) "install" = true ∨
        hasSub (toLowerStr info.content) "setup" = true →
      suggest_target_directory info base_dir = base_dir ++ "/scripts/setup") ∧
    (hasSub (toLowerStr info.content) "install" = false →
      hasSub (toLowerStr info.content) "setup" = false →
      hasSub (toLowerStr info.content) "test" = true →
      suggest_target_directory info base_dir = base_dir ++ "/scripts/tests") ∧
    (hasSub (toLowerStr info.content) "install" = false →
      hasSub (toLowerStr info.content) "setup" = false →
      hasSub (toLowerStr info.content) "test" = false →
      hasSub (toLowerStr info.content) "build" = true →
      suggest_target_directory info base_dir = base_dir ++ "/scripts/build") ∧
    (hasSub (toLowerStr info.content) "install" = false →
      hasSub (toLowerStr info.content) "setup" = false →
      hasSub (toLowerStr info.content) "test" = false →
      hasSub (toLowerStr info.content) "build" = false →
      suggest_target_directory info base_dir = base_dir ++ "/scripts") ∧
    (hasSub (toLowerStr info.content) "npm test" = true →
      hasSub (toLowerStr info.content) "install" = false →
      hasSub (toLowerStr info.content) "setup" = false →
      suggest_target_directory info base_dir = base_dir ++ "/scripts/tests") := by
  cases info with
  | mk path ft dk name content cd =>
    simp only at h1 h2
    subst h1
    subst h2
    refine ⟨?_, ?_, ?_, ?_, ?_⟩
    · rintro (h | h) <;> simp [suggest_target_directory, h]
    · intro ha hb hc
      simp [suggest_target_directory, ha, hb, hc]
    · intro ha hb hc hd
      simp [suggest_target_directory, ha, hb, hc, hd]
    · intro ha hb hc hd
      simp [suggest_target_directory, ha, hb, hc, hd]
    · intro hnpm ha hb
      have hc : hasSub (toLowerStr content) "test" = true :=
        hasSub_of_hasSub (by decide) hnpm
      simp [suggest_target_directory, ha, hb, hc]

/-- Witness for C8 at a concrete Shell/Script record whose content is
"npm test". -/
theorem C8_script_placement_witness :
    suggest_target_directory
      { path := "run.sh.sh", file_type := FileType.Shell,
        doc_kind := DocumentKind.Script, name := "run.sh",
        content := "npm test", created_date := none } "base" =
      "base" ++ "/scripts/tests" :=
  (C8_script_placement _ "base" rfl rfl).2.2.2.2 (by decide) (by decide) (by decide)


/-! ## Lemmas about the redundancy resolver -/

lemma insertCmp_perm {α : Type _} (cmp : α → α → Ordering) (x : α) :
    ∀ l : List α, (insertCmp cmp x l).Perm (x :: l)
  | [] => List.Perm.refl _
  | y :: ys => by
    rw [insertCmp]
    by_cases h : cmp x y = Ordering.gt
    · rw [if_pos h]
      exact ((insertCmp_perm cmp x ys).cons y).trans (List.Perm.swap x y ys)
    · rw [if_neg h]

lemma sortByCmp_perm {α : Type _} (cmp : α → α → Ordering) :
    ∀ l : List α, (sortByCmp cmp l).Perm l
  | [] => List.Perm.refl _
  | x :: xs => by
    rw [sortByCmp]
    exact (insertCmp_perm cmp x _).trans ((sortByCmp_perm cmp xs).cons x)

lemma head?_insertCmp {α : Type _} (cmp : α → α → Ordering) (x : α) :
    ∀ l : List α, (insertCmp cmp x l).head? =
      some (match l.head? with
            | none => x
            | some y => if cmp x y = Ordering.gt then y else x)
  | [] => rfl
  | y :: ys => by
    rw [insertCmp]
    by_cases h : cmp x y = Ordering.gt
    · rw [if_pos h]
      simp [h]
    · rw [if_neg h]
      simp [h]

lemma head?_sortByCmp {α : Type _} (cmp : α → α → Ordering) (better : α → α → Bool)
    (hbet : ∀ a b, better a b = true ↔ cmp a b = Ordering.lt)
    (hsymm : ∀ a b, cmp a b = Ordering.gt ↔ cmp b a = Ordering.lt) :
    ∀ l : List α, (sortByCmp cmp l).head? = bestBy better l
  | [] => rfl
  | x :: xs => by
    have IH := head?_sortByCmp cmp better hbet hsymm xs
    rw [sortByCmp, head?_insertCmp, IH, bestBy]
    cases hb : bestBy better xs with
    | none => rfl
    | some m =>
      show some (if cmp x m = Ordering.gt then m else x) =
        some (if better m x = true then m else x)
      by_cases hm : better m x = true
      · rw [if_pos hm, if_pos ((hsymm x m).2 ((hbet m x).1 hm))]
      · rw [if_neg hm, if_neg (fun hc => hm ((hbet m x).2 ((hsymm x m).1 hc)))]

lemma bestBy_isSome {α : Type _} (better : α → α → Bool) :
    ∀ l : List α, l ≠ [] → (bestBy better l).isSome = true
  | [], h => absurd rfl h
  | x :: xs, _ => by
    rw [bestBy]
    cases bestBy better xs <;> simp

lemma dateCmp_symm (a b : String × FileInfo) :
    dateCmp a b = Ordering.gt ↔ dateCmp b a = Ordering.lt := by
  unfold dateCmp
  cases a.2.created_date <;> cases b.2.created_date <;>
    simp [Nat.compare_eq_gt, Nat.compare_eq_lt]

lemma dateCmp_better (a b : String × FileInfo) :
    newerThan a.2.created_date b.2.created_date = true ↔ dateCmp a b = Ordering.lt := by
  unfold newerThan dateCmp
  cases a.2.created_date <;> cases b.2.created_date <;>
    simp [Nat.compare_eq_lt]

lemma rubricCmp_symm (a b : String × FileInfo) :
    rubricCmp a b = Ordering.gt ↔ rubricCmp b a = Ordering.lt := by
  unfold rubricCmp
  simp [Nat.compare_eq_gt, Nat.compare_eq_lt]

lemma rubricCmp_better (a b : String × FileInfo) :
    moreWords a b = true ↔ rubricCmp a b = Ordering.lt := by
  unfold moreWords rubricCmp
  simp [Nat.compare_eq_lt]

lemma keepBest_kept (cmp : (String × FileInfo) → (String × FileInfo) → Ordering)
    (better : (String × FileInfo) → (String × FileInfo) → Bool)
    (hbet : ∀ a b, better a b = true ↔ cmp a b = Ordering.lt)
    (hsymm : ∀ a b, cmp a b = Ordering.gt ↔ cmp b a = Ordering.lt)
    (g : List (String × FileInfo)) (hg : g ≠ []) :
    ∃ b, bestBy better g = some b ∧ (keepBest cmp g).1 = [b.1] ∧
      ∀ r ∈ g, r.1 ≠ b.1 → r.1 ∈ (keepBest cmp g).2 := by
  cases hs : sortByCmp cmp g with
  | nil =>
    have hperm := sortByCmp_perm cmp g
    rw [hs] at hperm
    exact absurd hperm.symm.eq_nil hg
  | cons b rest =>
    have hhead : bestBy better g = some b := by
      rw [← head?_sortByCmp cmp better hbet hsymm g, hs]
      rfl
    refine ⟨b, hhead, by rw [keepBest, hs], ?_⟩
    intro r hr hne
    have hmem : r ∈ sortByCmp cmp g := ((sortByCmp_perm cmp g).mem_iff).2 hr
    rw [hs] at hmem
    rcases List.mem_cons.1 hmem with rfl | hmem
    · exact absurd rfl hne
    · rw [keepBest, hs]
      exact List.mem_map_of_mem _ hmem

lemma keepBest_perm (cmp : (String × FileInfo) → (String × FileInfo) → Ordering)
    (g : List (String × FileInfo)) :
    ((keepBest cmp g).1 ++ (keepBest cmp g).2).Perm (g.map (fun r => r.1)) := by
  cases hs : sortByCmp cmp g with
  | nil =>
    have hperm := sortByCmp_perm cmp g
    rw [hs] at hperm
    rw [hperm.symm.eq_nil]
    simp [keepBest, sortByCmp]
  | cons b rest =>
    rw [keepBest, hs]
    have hperm0 := sortByCmp_perm cmp g
    rw [hs] at hperm0
    have hperm := hperm0.map (fun r : String × FileInfo => r.1)
    simpa using hperm

lemma keepBest_sub_group (cmp : (String × FileInfo) → (String × FileInfo) → Ordering)
    (g : List (String × FileInfo)) {p : String}
    (h : p ∈ (keepBest cmp g).1 ++ (keepBest cmp g).2) : p ∈ g.map (fun r => r.1) :=
  (keepBest_perm cmp g).subset h

lemma processScripts_perm : ∀ g u : List (String × FileInfo),
    ((processScripts g u).1 ++ (processScripts g u).2).Perm (g.map (fun r => r.1))
  | [], u => by simp [processScripts]
  | (p, info) :: rest, u => by
    rw [processScripts]
    by_cases h : (u.any fun q => trimL info.content.data == trimL q.2.content.data) = true
    · rw [if_pos h]
      exact List.perm_middle.trans ((processScripts_perm rest u).cons p)
    · rw [if_neg h]
      simpa using ((processScripts_perm rest (u ++ [(p, info)])).cons p)


/-! ## The keep/discard partition -/

lemma classifyPass_count (a : String) : ∀ files : List RawFile,
    ((classifyPass files).allPaths).count a = (files.map RawFile.path).count a
  | [] => rfl
  | f :: fs => by
    have IH := classifyPass_count a fs
    rw [classifyPass]
    cases hnew : FileInfo.new f with
    | none =>
      simp only [Groups.allPaths, List.count_append, List.map_cons, List.count_cons] at IH ⊢
      omega
    | some info =>
      cases hk : info.doc_kind <;>
        simp only [hk, Groups.allPaths, List.count_append, List.map_cons,
          List.count_cons] at IH ⊢ <;>
        omega

lemma classifyPass_perm (files : List RawFile) :
    ((classifyPass files).allPaths).Perm (files.map RawFile.path) :=
  List.perm_iff_count.2 (fun a => classifyPass_count a files)

lemma keep_decomp (files : List RawFile) : keepOf files =
    (classifyPass files).important ++
    (keepBest rubricCmp (classifyPass files).rubrics).1 ++
    (keepBest dateCmp (classifyPass files).reports).1 ++
    (classifyPass files).guides.map (fun r => r.1) ++
    (keepBest dateCmp (classifyPass files).summaries).1 ++
    (processScripts (classifyPass files).scripts []).1 := rfl

lemma discard_decomp (files : List RawFile) : discardOf files =
    (keepBest rubricCmp (classifyPass files).rubrics).2 ++
    (keepBest dateCmp (classifyPass files).reports).2 ++
    (keepBest dateCmp (classifyPass files).summaries).2 ++
    (processScripts (classifyPass files).scripts []).2 := rfl

lemma keep_discard_count (files : List RawFile) (a : String) :
    (keepOf files ++ discardOf files).count a = (files.map RawFile.path).count a := by
  have h1 := (keepBest_perm rubricCmp (classifyPass files).rubrics).count_eq a
  have h2 := (keepBest_perm dateCmp (classifyPass files).reports).count_eq a
  have h3 := (keepBest_perm dateCmp (classifyPass files).summaries).count_eq a
  have h4 := (processScripts_perm (classifyPass files).scripts []).count_eq a
  have h5 := (classifyPass_perm files).count_eq a
  rw [keep_decomp, discard_decomp]
  simp only [Groups.allPaths, List.count_append] at h1 h2 h3 h4 h5 ⊢
  omega

lemma keep_discard_perm (files : List RawFile) :
    (keepOf files ++ discardOf files).Perm (files.map RawFile.path) :=
  List.perm_iff_count.2 (keep_discard_count files)

lemma keep_discard_disjoint (files : List RawFile)
    (hnd : (files.map RawFile.path).Nodup) {p : String}
    (hk : p ∈ keepOf files) : p ∉ discardOf files :=
  fun hd =>
    List.disjoint_of_nodup_append ((keep_discard_perm files).symm.nodup hnd) hk hd

lemma important_of_unreadable_or_unknown : ∀ (files : List RawFile) (f : RawFile),
    f ∈ files →
    (FileInfo.new f = none ∨
      ∃ i, FileInfo.new f = some i ∧ i.doc_kind = DocumentKind.Unknown) →
    f.path ∈ (classifyPass files).important
  | [], f, hf, _ => absurd hf (by simp)
  | f' :: fs, f, hf, hcond => by
    rw [classifyPass]
    rcases List.mem_cons.1 hf with rfl | hmem
    · split
      · next hn =>
        exact List.mem_cons_self _ _
      · next i hi =>
        rcases hcond with hn | ⟨i2, hi2, hk⟩
        · rw [hi] at hn
          cases hn
        · rw [hi] at hi2
          obtain rfl := Option.some.inj hi2
          split <;>
            first
              | exact List.mem_cons_self _ _
              | simp_all
    · have IH := important_of_unreadable_or_unknown fs f hmem hcond
      split
      · exact List.mem_cons_of_mem _ IH
      · split <;>
          first
            | exact IH
            | exact List.mem_cons_of_mem _ IH

/-- C1: the redundancy partition covers exactly the input set, keep and
discard are disjoint, and every unreadable file and every `Unknown`-kind
record lands in keep. -/
theorem C1_partition (files : List RawFile) (hnd : (files.map RawFile.path).Nodup) :
    (keepOf files ++ discardOf files).Perm (files.map RawFile.path) ∧
    (∀ p, p ∈ keepOf files → p ∉ discardOf files) ∧
    (∀ f ∈ files,
      (FileInfo.new f = none ∨
        ∃ i, FileInfo.new f = some i ∧ i.doc_kind = DocumentKind.Unknown) →
      f.path ∈ keepOf files) := by
  refine ⟨keep_discard_perm files, fun p hp => keep_discard_disjoint files hnd hp, ?_⟩
  intro f hf hcond
  have himp := important_of_unreadable_or_unknown files f hf hcond
  rw [keep_decomp]
  simp only [List.append_assoc, List.mem_append]
  exact Or.inl himp


/-! ## Per-kind retention claims -/

lemma group_best_spec (files : List RawFile) (hnd : (files.map RawFile.path).Nodup)
    (g : List (String × FileInfo))
    (cmp : (String × FileInfo) → (String × FileInfo) → Ordering)
    (better : (String × FileInfo) → (String × FileInfo) → Bool)
    (hbet : ∀ a b, better a b = true ↔ cmp a b = Ordering.lt)
    (hsymm : ∀ a b, cmp a b = Ordering.gt ↔ cmp b a = Ordering.lt)
    (hkeep : ∀ p, p ∈ (keepBest cmp g).1 → p ∈ keepOf files)
    (hdisc : ∀ p, p ∈ (keepBest cmp g).2 → p ∈ discardOf files)
    (hg : g ≠ []) :
    ∃ b, bestBy better g = some b ∧ b.1 ∈ keepOf files ∧ b.1 ∉ discardOf files ∧
      ∀ r ∈ g, r.1 ≠ b.1 → r.1 ∈ discardOf files ∧ r.1 ∉ keepOf files := by
  obtain ⟨b, hb, hk1, hrest⟩ := keepBest_kept cmp better hbet hsymm g hg
  have hbk : b.1 ∈ keepOf files := hkeep b.1 (by rw [hk1]; exact List.mem_cons_self _ _)
  refine ⟨b, hb, hbk, keep_discard_disjoint files hnd hbk, ?_⟩
  intro r hr hne
  have hd : r.1 ∈ discardOf files := hdisc r.1 (hrest r hr hne)
  exact ⟨hd, fun hk => keep_discard_disjoint files hnd hk hd⟩

/-- C3: a non-empty report group and a non-empty summary group each keep
exactly one record: the one with the most recent creation date, an absent
timestamp ordering as oldest, ties broken by enumeration order; all other
records of the group are discarded. -/
theorem C3_newest_report_summary_kept (files : List RawFile)
    (hnd : (files.map RawFile.path).Nodup) :
    (groupOfKind files DocumentKind.Report ≠ [] →
      ∃ b, mostRecent (groupOfKind files DocumentKind.Report) = some b ∧
        b.1 ∈ keepOf files ∧ b.1 ∉ discardOf files ∧
        ∀ r ∈ groupOfKind files DocumentKind.Report, r.1 ≠ b.1 →
          r.1 ∈ discardOf files ∧ r.1 ∉ keepOf files) ∧
    (groupOfKind files DocumentKind.Summary ≠ [] →
      ∃ b, mostRecent (groupOfKind files DocumentKind.Summary) = some b ∧
        b.1 ∈ keepOf files ∧ b.1 ∉ discardOf files ∧
        ∀ r ∈ groupOfKind files DocumentKind.Summary, r.1 ≠ b.1 →
          r.1 ∈ discardOf files ∧ r.1 ∉ keepOf files) := by
  constructor
  · intro hg
    exact group_best_spec files hnd (classifyPass files).reports dateCmp
      (fun m x => newerThan m.2.created_date x.2.created_date)
      dateCmp_better dateCmp_symm
      (fun p hp => by
        rw [keep_decomp]
        simp only [List.append_assoc, List.mem_append]
        tauto)
      (fun p hp => by
        rw [discard_decomp]
        simp only [List.append_assoc, List.mem_append]
        tauto)
      hg
  · intro hg
    exact group_best_spec files hnd (classifyPass files).summaries dateCmp
      (fun m x => newerThan m.2.created_date x.2.created_date)
      dateCmp_better dateCmp_symm
      (fun p hp => by
        rw [keep_decomp]
        simp only [List.append_assoc, List.mem_append]
        tauto)
      (fun p hp => by
        rw [discard_decomp]
        simp only [List.append_assoc, List.mem_append]
        tauto)
      hg

/-- Witness for C3 on `demoC3`. -/
theorem C3_newest_report_summary_kept_witness :
    ((demoC3.map RawFile.path).Nodup) ∧
    ((groupOfKind demoC3 DocumentKind.Report ≠ [] →
      ∃ b, mostRecent (groupOfKind demoC3 DocumentKind.Report) = some b ∧
        b.1 ∈ keepOf demoC3 ∧ b.1 ∉ discardOf demoC3 ∧
        ∀ r ∈ groupOfKind demoC3 DocumentKind.Report, r.1 ≠ b.1 →
          r.1 ∈ discardOf demoC3 ∧ r.1 ∉ keepOf demoC3) ∧
    (groupOfKind demoC3 DocumentKind.Summary ≠ [] →
      ∃ b, mostRecent (groupOfKind demoC3 DocumentKind.Summary) = some b ∧
        b.1 ∈ keepOf demoC3 ∧ b.1 ∉ discardOf demoC3 ∧
        ∀ r ∈ groupOfKind demoC3 DocumentKind.Summary, r.1 ≠ b.1 →
          r.1 ∈ discardOf demoC3 ∧ r.1 ∉ keepOf demoC3)) :=
  ⟨by decide, C3_newest_report_summary_kept demoC3 (by decide)⟩

/-- C4: a non-empty rubric group keeps exactly one record: the one with the
highest whitespace-delimited word count, ties broken by enumeration order;
all other rubric records are discarded. -/
theorem C4_most_comprehensive_rubric_kept (files : List RawFile)
    (hnd : (files.map RawFile.path).Nodup)
    (hg : groupOfKind files DocumentKind.Rubric ≠ []) :
    ∃ b, mostComprehensive (groupOfKind files DocumentKind.Rubric) = some b ∧
      b.1 ∈ keepOf files ∧ b.1 ∉ discardOf files ∧
      ∀ r ∈ groupOfKind files DocumentKind.Rubric, r.1 ≠ b.1 →
        r.1 ∈ discardOf files ∧ r.1 ∉ keepOf files := by
  exact group_best_spec files hnd (classifyPass files).rubrics rubricCmp moreWords
    rubricCmp_better rubricCmp_symm
    (fun p hp => by
      rw [keep_decomp]
      simp only [List.append_assoc, List.mem_append]
      tauto)
    (fun p hp => by
      rw [discard_decomp]
      simp only [List.append_assoc, List.mem_append]
      tauto)
    hg

/-- Witness for C4 on `demoC4`. -/
theorem C4_most_comprehensive_rubric_kept_witness :
    ((demoC4.map RawFile.path).Nodup) ∧ groupOfKind demoC4 DocumentKind.Rubric ≠ [] ∧
    (∃ b, mostComprehensive (groupOfKind demoC4 DocumentKind.Rubric) = some b ∧
      b.1 ∈ keepOf demoC4 ∧ b.1 ∉ discardOf demoC4 ∧
      ∀ r ∈ groupOfKind demoC4 DocumentKind.Rubric, r.1 ≠ b.1 →
        r.1 ∈ discardOf demoC4 ∧ r.1 ∉ keepOf demoC4) :=
  ⟨by decide, by decide, C4_most_comprehensive_rubric_kept demoC4 (by decide) (by decide)⟩

/-- Witness for C1 on `demoC1`. -/
theorem C1_partition_witness :
    ((demoC1.map RawFile.path).Nodup) ∧
    ((keepOf demoC1 ++ discardOf demoC1).Perm (demoC1.map RawFile.path) ∧
     (∀ p, p ∈ keepOf demoC1 → p ∉ discardOf demoC1) ∧
     (∀ f ∈ demoC1,
       (FileInfo.new f = none ∨
         ∃ i, FileInfo.new f = some i ∧ i.doc_kind = DocumentKind.Unknown) →
       f.path ∈ keepOf demoC1)) :=
  ⟨by decide, C1_partition demoC1 (by decide)⟩


/-! ## Singleton groups -/

lemma mem_important_of_unknownGroup : ∀ (files : List RawFile) (x : String × FileInfo),
    x ∈ groupOfKind files DocumentKind.Unknown → x.1 ∈ (classifyPass files).important
  | [], x, hx => absurd hx (by simp [groupOfKind, readableInfos])
  | f :: fs, x, hx => by
    have hx' : x ∈ (readableInfos (f :: fs)).filter
        (fun y => y.2.doc_kind == DocumentKind.Unknown) := hx
    rw [classifyPass]
    cases hnew : FileInfo.new f with
    | none =>
      simp only [readableInfos, List.filterMap_cons, hnew] at hx'
      have IH := mem_important_of_unknownGroup fs x (by
        simpa [groupOfKind, readableInfos] using hx')
      exact List.mem_cons_of_mem _ IH
    | some i =>
      simp only [readableInfos, List.filterMap_cons, hnew, Option.map_some'] at hx'
      by_cases hk : i.doc_kind = DocumentKind.Unknown
      · rw [List.filter_cons_of_pos (by simpa using hk)] at hx'
        rcases List.mem_cons.1 hx' with rfl | hmem
        · simp only [hk]
          exact List.mem_cons_self _ _
        · have IH := mem_important_of_unknownGroup fs x (by
            simpa [groupOfKind, readableInfos] using hmem)
          simp only [hk]
          exact List.mem_cons_of_mem _ IH
      · rw [List.filter_cons_of_neg (by simpa using hk)] at hx'
        have IH := mem_important_of_unknownGroup fs x (by
          simpa [groupOfKind, readableInfos] using hx')
        cases hk2 : i.doc_kind <;> simp only [hk2] <;>
          first
            | exact absurd hk2 hk
            | exact IH

/-- C6: a singleton group of any document kind is entirely kept: its only
record lands in keep and nothing of the group is discarded. -/
theorem C6_singleton_groups_kept (files : List RawFile)
    (hnd : (files.map RawFile.path).Nodup) (k : DocumentKind)
    (x : String × FileInfo) (hx : groupOfKind files k = [x]) :
    x.1 ∈ keepOf files ∧ x.1 ∉ discardOf files := by
  have hkeep : x.1 ∈ keepOf files := by
    cases k with
    | Rubric =>
      have hg : (classifyPass files).rubrics = [x] := hx
      have hmem : x.1 ∈ (keepBest rubricCmp (classifyPass files).rubrics).1 := by
        rw [hg]
        exact List.mem_cons_self _ _
      rw [keep_decomp]
      simp only [List.append_assoc, List.mem_append]
      tauto
    | Report =>
      have hg : (classifyPass files).reports = [x] := hx
      have hmem : x.1 ∈ (keepBest dateCmp (classifyPass files).reports).1 := by
        rw [hg]
        exact List.mem_cons_self _ _
      rw [keep_decomp]
      simp only [List.append_assoc, List.mem_append]
      tauto
    | Guide =>
      have hg : (classifyPass files).guides = [x] := hx
      have hmem : x.1 ∈ (classifyPass files).guides.map (fun r => r.1) := by
        rw [hg]
        exact List.mem_cons_self _ _
      rw [keep_decomp]
      simp only [List.append_assoc, List.mem_append]
      tauto
    | Summary =>
      have hg : (classifyPass files).summaries = [x] := hx
      have hmem : x.1 ∈ (keepBest dateCmp (classifyPass files).summaries).1 := by
        rw [hg]
        exact List.mem_cons_self _ _
      rw [keep_decomp]
      simp only [List.append_assoc, List.mem_append]
      tauto
    | Script =>
      have hg : (classifyPass files).scripts = [x] := hx
      obtain ⟨p, i⟩ := x
      have hmem : p ∈ (processScripts (classifyPass files).scripts []).1 := by
        rw [hg]
        exact List.mem_cons_self _ _
      rw [keep_decomp]
      simp only [List.append_assoc, List.mem_append]
      tauto
    | Unknown =>
      have hmem := mem_important_of_unknownGroup files x (by
        rw [hx]
        exact List.mem_cons_self _ _)
      rw [keep_decomp]
      simp only [List.append_assoc, List.mem_append]
      tauto
  exact ⟨hkeep, keep_discard_disjoint files hnd hkeep⟩

/-- Witness for C6: a singleton guide group on `demoC6`. -/
theorem C6_singleton_groups_kept_witness :
    ((demoC6.map RawFile.path).Nodup) ∧
    groupOfKind demoC6 DocumentKind.Guide =
      [("g.md", { path := "g.md", file_type := FileType.Markdown,
                  doc_kind := DocumentKind.Guide, name := "user_guide",
                  content := "hi", created_date := none })] ∧
    ("g.md" ∈ keepOf demoC6 ∧ "g.md" ∉ discardOf demoC6) :=
  ⟨by decide, by decide,
    C6_singleton_groups_kept demoC6 (by decide) DocumentKind.Guide
      ("g.md", { path := "g.md", file_type := FileType.Markdown,
                 doc_kind := DocumentKind.Guide, name := "user_guide",
                 content := "hi", created_date := none })
      (by decide)⟩


/-! ## Script deduplication -/

lemma processScripts_kept_sub (g u : List (String × FileInfo)) {p : String}
    (h : p ∈ (processScripts g u).1) : p ∈ g.map (fun r => r.1) :=
  (processScripts_perm g u).subset (List.mem_append_left _ h)

lemma processScripts_kept_iff : ∀ (pre : List (String × FileInfo)) (x : String × FileInfo)
    (post u : List (String × FileInfo)),
    (((pre ++ x :: post).map (fun r => r.1)).Nodup) →
    (x.1 ∈ (processScripts (pre ++ x :: post) u).1 ↔
      ((∀ q ∈ u, trimL q.2.content.data ≠ trimL x.2.content.data) ∧
       ∀ y ∈ pre, trimL y.2.content.data ≠ trimL x.2.content.data))
  | [], x, post, u, hnd => by
    obtain ⟨p, i⟩ := x
    show (p, i).1 ∈ (processScripts ((p, i) :: post) u).1 ↔ _
    rw [processScripts]
    by_cases hc : (u.any fun q => trimL i.content.data == trimL q.2.content.data) = true
    · rw [if_pos hc]
      constructor
      · intro hmem
        exfalso
        have hsub := processScripts_kept_sub post u hmem
        simp only [List.nil_append, List.map_cons, List.nodup_cons] at hnd
        exact hnd.1 hsub
      · rintro ⟨hu, _⟩
        exfalso
        rcases List.any_eq_true.1 hc with ⟨q, hq, hbeq⟩
        exact hu q hq ((by simpa using hbeq) : trimL i.content.data = _).symm
    · rw [if_neg hc]
      constructor
      · intro _
        refine ⟨?_, by simp⟩
        intro q hq heq
        exact hc (List.any_eq_true.2 ⟨q, hq, by simp [heq]⟩)
      · intro _
        exact List.mem_cons_self _ _
  | (yp, yi) :: pre, x, post, u, hnd => by
    show x.1 ∈ (processScripts ((yp, yi) :: (pre ++ x :: post)) u).1 ↔ _
    rw [processScripts]
    have hnd' : (((pre ++ x :: post)).map (fun r => r.1)).Nodup := by
      simp only [List.cons_append, List.map_cons, List.nodup_cons] at hnd
      exact hnd.2
    have hxmem : x.1 ∈ (pre ++ x :: post).map (fun r => r.1) :=
      List.mem_map_of_mem _ (List.mem_append_right _ (List.mem_cons_self _ _))
    have hxyp : x.1 ≠ yp := by
      simp only [List.cons_append, List.map_cons, List.nodup_cons] at hnd
      intro h
      rw [h] at hxmem
      exact hnd.1 hxmem
    by_cases hc : (u.any fun q => trimL yi.content.data == trimL q.2.content.data) = true
    · rw [if_pos hc]
      rw [processScripts_kept_iff pre x post u hnd']
      constructor
      · rintro ⟨hu, hpre⟩
        refine ⟨hu, ?_⟩
        intro z hz
        rcases List.mem_cons.1 hz with rfl | hz2
        · intro heq
          rcases List.any_eq_true.1 hc with ⟨q, hq, hbeq⟩
          have hqy : trimL yi.content.data = trimL q.2.content.data := by simpa using hbeq
          exact hu q hq (hqy.symm.trans heq)
        · exact hpre z hz2
      · rintro ⟨hu, hall⟩
        exact ⟨hu, fun z hz => hall z (List.mem_cons_of_mem _ hz)⟩
    · rw [if_neg hc]
      have IH := processScripts_kept_iff pre x post (u ++ [(yp, yi)]) hnd'
      constructor
      · intro hmem
        have h2 : x.1 ∈ (processScripts (pre ++ x :: post) (u ++ [(yp, yi)])).1 := by
          rcases List.mem_cons.1 hmem with h | h
          · exact absurd h hxyp
          · exact h
        obtain ⟨hu', hpre'⟩ := IH.1 h2
        refine ⟨fun q hq => hu' q (List.mem_append_left _ hq), ?_⟩
        intro z hz
        rcases List.mem_cons.1 hz with rfl | hz2
        · exact hu' _ (List.mem_append_right _ (List.mem_cons_self _ _))
        · exact hpre' z hz2
      · rintro ⟨hu, hall⟩
        refine List.mem_cons_of_mem _ (IH.2 ⟨?_, fun z hz => hall z (List.mem_cons_of_mem _ hz)⟩)
        intro q hq
        rcases List.mem_append.1 hq with hq1 | hq2
        · exact hu q hq1
        · rw [List.mem_singleton.1 hq2]
          exact hall (yp, yi) (List.mem_cons_self _ _)

lemma processScripts_mem_disc_iff (g u : List (String × FileInfo))
    (hnd : (g.map (fun r => r.1)).Nodup) {x : String × FileInfo} (hx : x ∈ g) :
    (x.1 ∈ (processScripts g u).2 ↔ x.1 ∉ (processScripts g u).1) := by
  have hperm := processScripts_perm g u
  have hnd2 : ((processScripts g u).1 ++ (processScripts g u).2).Nodup :=
    hperm.symm.nodup hnd
  have hmem : x.1 ∈ (processScripts g u).1 ++ (processScripts g u).2 :=
    hperm.symm.subset (List.mem_map_of_mem _ hx)
  constructor
  · intro hd hk
    exact List.disjoint_of_nodup_append hnd2 hk hd
  · intro hk
    rcases List.mem_append.1 hmem with h | h
    · exact absurd h hk
    · exact h

lemma scripts_paths_nodup (files : List RawFile)
    (hnd : (files.map RawFile.path).Nodup) :
    ((classifyPass files).scripts.map (fun r => r.1)).Nodup := by
  have hall := (classifyPass_perm files).symm.nodup hnd
  simp only [Groups.allPaths] at hall
  exact (List.nodup_append.1 hall).2.1

lemma script_path_not_elsewhere (files : List RawFile)
    (hnd : (files.map RawFile.path).Nodup) {p : String}
    (hp : p ∈ (classifyPass files).scripts.map (fun r => r.1)) :
    p ∉ (classifyPass files).important ∧
    p ∉ (classifyPass files).rubrics.map (fun r => r.1) ∧
    p ∉ (classifyPass files).reports.map (fun r => r.1) ∧
    p ∉ (classifyPass files).guides.map (fun r => r.1) ∧
    p ∉ (classifyPass files).summaries.map (fun r => r.1) := by
  have hall := (classifyPass_perm files).symm.nodup hnd
  simp only [Groups.allPaths] at hall
  have hd := (List.nodup_append.1 hall).2.2
  exact ⟨fun h => hd (by simp [List.mem_append, h]) hp,
         fun h => hd (by simp [List.mem_append, h]) hp,
         fun h => hd (by simp [List.mem_append, h]) hp,
         fun h => hd (by simp [List.mem_append, h]) hp,
         fun h => hd (by simp [List.mem_append, h]) hp⟩

lemma script_keepOf_iff (files : List RawFile) (hnd : (files.map RawFile.path).Nodup)
    {x : String × FileInfo} (hx : x ∈ (classifyPass files).scripts) :
    (x.1 ∈ keepOf files ↔ x.1 ∈ (processScripts (classifyPass files).scripts []).1) := by
  have hp : x.1 ∈ (classifyPass files).scripts.map (fun r => r.1) :=
    List.mem_map_of_mem _ hx
  obtain ⟨h1, h2, h3, h4, h5⟩ := script_path_not_elsewhere files hnd hp
  rw [keep_decomp]
  simp only [List.append_assoc, List.mem_append]
  constructor
  · rintro (h | h | h | h | h | h)
    · exact absurd h h1
    · exact absurd (keepBest_sub_group rubricCmp _ (List.mem_append_left _ h)) h2
    · exact absurd (keepBest_sub_group dateCmp _ (List.mem_append_left _ h)) h3
    · exact absurd h h4
    · exact absurd (keepBest_sub_group dateCmp _ (List.mem_append_left _ h)) h5
    · exact h
  · intro h
    tauto

lemma script_discardOf_iff (files : List RawFile) (hnd : (files.map RawFile.path).Nodup)
    {x : String × FileInfo} (hx : x ∈ (classifyPass files).scripts) :
    (x.1 ∈ discardOf files ↔ x.1 ∈ (processScripts (classifyPass files).scripts []).2) := by
  have hp : x.1 ∈ (classifyPass files).scripts.map (fun r => r.1) :=
    List.mem_map_of_mem _ hx
  obtain ⟨h1, h2, h3, h4, h5⟩ := script_path_not_elsewhere files hnd hp
  rw [discard_decomp]
  simp only [List.append_assoc, List.mem_append]
  constructor
  · rintro (h | h | h | h)
    · exact absurd (keepBest_sub_group rubricCmp _ (List.mem_append_right _ h)) h2
    · exact absurd (keepBest_sub_group dateCmp _ (List.mem_append_right _ h)) h3
    · exact absurd (keepBest_sub_group dateCmp _ (List.mem_append_right _ h)) h5
    · exact h
  · intro h
    tauto

lemma exists_first_match {t : List Char} : ∀ pre : List (String × FileInfo),
    (∃ y ∈ pre, trimL y.2.content.data = t) →
    ∃ a y b, pre = a ++ y :: b ∧ trimL y.2.content.data = t ∧
      ∀ z ∈ a, trimL z.2.content.data ≠ t
  | [], h => absurd h (by simp)
  | y0 :: rest, h => by
    by_cases h0 : trimL y0.2.content.data = t
    · exact ⟨[], y0, rest, rfl, h0, by simp⟩
    · have hrest : ∃ y ∈ rest, trimL y.2.content.data = t := by
        rcases h with ⟨y, hy, hyt⟩
        rcases List.mem_cons.1 hy with rfl | hy2
        · exact absurd hyt h0
        · exact ⟨y, hy2, hyt⟩
      obtain ⟨a, y, b, hdec, hyt, ha⟩ := exists_first_match rest hrest
      refine ⟨y0 :: a, y, b, by simp [hdec], hyt, ?_⟩
      intro z hz
      rcases List.mem_cons.1 hz with rfl | hz2
      · exact h0
      · exact ha z hz2

lemma script_keep_char (files : List RawFile) (hnd : (files.map RawFile.path).Nodup)
    (pre x post) (hdecomp : (classifyPass files).scripts = pre ++ x :: post) :
    (x.1 ∈ keepOf files ↔
      ∀ y ∈ pre, trimL y.2.content.data ≠ trimL x.2.content.data) := by
  have hx : x ∈ (classifyPass files).scripts := by
    rw [hdecomp]
    exact List.mem_append_right _ (List.mem_cons_self _ _)
  have hscr := scripts_paths_nodup files hnd
  rw [script_keepOf_iff files hnd hx, hdecomp]
  rw [hdecomp] at hscr
  rw [processScripts_kept_iff pre x post [] hscr]
  simp

lemma script_discard_char (files : List RawFile) (hnd : (files.map RawFile.path).Nodup)
    (pre x post) (hdecomp : (classifyPass files).scripts = pre ++ x :: post) :
    (x.1 ∈ discardOf files ↔
      ¬ ∀ y ∈ pre, trimL y.2.content.data ≠ trimL x.2.content.data) := by
  have hx : x ∈ (classifyPass files).scripts := by
    rw [hdecomp]
    exact List.mem_append_right _ (List.mem_cons_self _ _)
  have hscr := scripts_paths_nodup files hnd
  have hx2 : x ∈ pre ++ x :: post := List.mem_append_right _ (List.mem_cons_self _ _)
  rw [script_discardOf_iff files hnd hx, hdecomp]
  rw [hdecomp] at hscr
  rw [processScripts_mem_disc_iff _ [] hscr hx2]
  rw [processScripts_kept_iff pre x post [] hscr]
  simp

/-- C5: within the script group in enumeration order, a record is kept
exactly when no earlier script has the same trimmed content, and discarded
exactly when its trimmed content coincides with that of an already-kept
(first-occurrence) script. -/
theorem C5_script_dedup (files : List RawFile) (hnd : (files.map RawFile.path).Nodup)
    (pre : List (String × FileInfo)) (x : String × FileInfo)
    (post : List (String × FileInfo))
    (hdecomp : groupOfKind files DocumentKind.Script = pre ++ x :: post) :
    (x.1 ∈ keepOf files ↔
      ∀ y ∈ pre, trimL y.2.content.data ≠ trimL x.2.content.data) ∧
    (x.1 ∈ discardOf files ↔
      ∃ y ∈ pre, trimL y.2.content.data = trimL x.2.content.data ∧
        y.1 ∈ keepOf files) := by
  have hdecomp2 : (classifyPass files).scripts = pre ++ x :: post := hdecomp
  refine ⟨script_keep_char files hnd pre x post hdecomp2, ?_⟩
  rw [script_discard_char files hnd pre x post hdecomp2]
  constructor
  · intro hnall
    push_neg at hnall
    obtain ⟨y, hy, heq⟩ := hnall
    obtain ⟨a, y0, b, hdec, hy0t, ha⟩ := exists_first_match pre ⟨y, hy, heq⟩
    have hy0pre : y0 ∈ pre := by
      rw [hdec]
      exact List.mem_append_right _ (List.mem_cons_self _ _)
    refine ⟨y0, hy0pre, hy0t, ?_⟩
    have hdec2 : (classifyPass files).scripts = a ++ y0 :: (b ++ x :: post) := by
      rw [hdecomp2, hdec]
      simp [List.append_assoc]
    rw [script_keep_char files hnd a y0 (b ++ x :: post) hdec2]
    intro z hz heq2
    exact ha z hz (heq2.trans hy0t)
  · rintro ⟨y, hy, heq, _⟩
    intro hall
    exact hall y hy heq

/-- Witness for C5 on `demoC5`: the middle script `b.sh` duplicates the
kept first script `a.sh` after trimming. -/
theorem C5_script_dedup_witness :
    ((demoC5.map RawFile.path).Nodup) ∧
    groupOfKind demoC5 DocumentKind.Script = [recA5] ++ recB5 :: [recC5] ∧
    ((recB5.1 ∈ keepOf demoC5 ↔
      ∀ y ∈ [recA5], trimL y.2.content.data ≠ trimL recB5.2.content.data) ∧
     (recB5.1 ∈ discardOf demoC5 ↔
      ∃ y ∈ [recA5], trimL y.2.content.data = trimL recB5.2.content.data ∧
        y.1 ∈ keepOf demoC5)) :=
  ⟨by decide, by decide,
    C5_script_dedup demoC5 (by decide) [recA5] recB5 [recC5] (by decide)⟩

end Maid
